import Mathlib

/-!
Verification development for the plan-and-execute / reflection control loops
of this repository.

Strings from the Python sources are modelled as `List Char`.  Fallible Python
code (code that can raise) is modelled with `Except PyErr`.  The opaque
external collaborators (the chat model, the web-search tool, the tool-using
sub-agent) are passed in as function parameters ("oracles"), following the
spec's external-interface section.
-/

namespace LGT

/-- Python exception outcomes that the modelled code can raise. -/
inductive PyErr where
  /-- `IndexError`, e.g. `match[0]` on an empty string or `plan[0]` on an empty list. -/
  | indexError : PyErr
  /-- `ValueError`/`SyntaxError` from `ast.literal_eval` on unparseable input. -/
  | valueError : PyErr
  /-- `TypeError`, e.g. `dict + list`, or a payload value outside the state schema. -/
  | typeError : PyErr
  /-- `KeyError` from a missing dict key. -/
  | keyError : PyErr
  /-- An exception raised by the opaque tool/agent capability, carrying its message. -/
  | toolError : List Char → PyErr
  /-- The graph engine's recursion/iteration limit was hit. -/
  | recursionLimit : PyErr
deriving DecidableEq

/-- The characters Python's `str.strip()` removes. -/
def isPySpace (c : Char) : Bool :=
  c = ' ' || c = '\t' || c = '\n' || c = '\x0d' || c = '\x0b' || c = '\x0c'

/-- Python `str.strip()`: drop leading and trailing whitespace. -/
def pyStrip (s : List Char) : List Char :=
  ((s.dropWhile isPySpace).reverse.dropWhile isPySpace).reverse

/-- Leftmost occurrence of the pattern `pat` in `s`: returns the part before the
occurrence and the part after it, or `none` when `pat` does not occur. -/
def splitFirst (pat : List Char) : List Char → Option (List Char × List Char)
  | [] => none
  | c :: rest =>
    if pat.isPrefixOf (c :: rest) then some ([], (c :: rest).drop pat.length)
    else
      match splitFirst pat rest with
      | some (pre, post) => some (c :: pre, post)
      | none => none

theorem splitFirst_length {pat : List Char} (hpat : pat ≠ []) :
    ∀ {s pre post : List Char}, splitFirst pat s = some (pre, post) →
      post.length < s.length := by
  intro s
  induction s with
  | nil => intro pre post h; simp [splitFirst] at h
  | cons c rest ih =>
    intro pre post h
    rw [splitFirst] at h
    by_cases hp : pat.isPrefixOf (c :: rest)
    · simp only [hp, if_pos] at h
      obtain ⟨_, h2⟩ := Prod.mk.injEq .. ▸ Option.some.injEq .. ▸ h
      subst h2
      have hl : 1 ≤ pat.length := by
        cases pat with
        | nil => exact absurd rfl hpat
        | cons _ _ => simp
      simp only [List.length_drop, List.length_cons]
      omega
    · simp only [hp, if_neg, Bool.false_eq_true, not_false_iff] at h
      cases hsf : splitFirst pat rest with
      | none => rw [hsf] at h; exact absurd h (by simp)
      | some pr =>
        rw [hsf] at h
        obtain ⟨pre', post'⟩ := pr
        have := ih hsf
        have hpost : post = post' := by
          have := Option.some.injEq .. ▸ h
          cases h
          rfl
        subst hpost
        exact Nat.lt_trans this (by simp)

/-- The opening tag of a fenced JSON block, `` ```json ``. -/
def openTag : List Char := "```json".data

/-- The closing tag of a fenced block, `` ``` ``. -/
def closeTag : List Char := "```".data

/-- Fuel-indexed scanner behind `findallBlocks`; the fuel only bounds the
number of blocks, which is at most the length of the text. -/
def findallAux : Nat → List Char → List (List Char)
  | 0, _ => []
  | fuel + 1, s =>
    match splitFirst openTag s with
    | none => []
    | some (_, afterOpen) =>
      match splitFirst closeTag afterOpen with
      | none => []
      | some (body, rest) => body :: findallAux fuel rest

/-- `re.findall(r"\x60\x60\x60json(.*?)\x60\x60\x60", text, re.DOTALL)`: the list
of captured bodies of all non-overlapping lazily-matched fenced `json` blocks,
scanned left to right. -/
def findallBlocks (s : List Char) : List (List Char) :=
  findallAux (s.length + 1) s

theorem findallAux_fuel :
    ∀ fuel : Nat, ∀ s : List Char, s.length < fuel →
      findallAux fuel s = findallAux (s.length + 1) s := by
  intro fuel
  induction fuel using Nat.strong_induction_on with
  | _ fuel ih =>
    intro s hs
    match fuel, hs with
    | f + 1, hs =>
      rw [findallAux]
      conv_rhs => rw [findallAux]
      cases h1 : splitFirst openTag s with
      | none => rfl
      | some p1 =>
        obtain ⟨pre1, afterOpen⟩ := p1
        cases h2 : splitFirst closeTag afterOpen with
        | none => simp only [h2]
        | some p2 =>
          obtain ⟨body, rest⟩ := p2
          have ha : afterOpen.length < s.length :=
            splitFirst_length (by simp [openTag]) h1
          have hb : rest.length < afterOpen.length :=
            splitFirst_length (by simp [closeTag]) h2
          have e1 : findallAux f rest = findallAux (rest.length + 1) rest :=
            ih f (by omega) rest (by omega)
          have e2 : findallAux s.length rest = findallAux (rest.length + 1) rest :=
            ih s.length (by omega) rest (by omega)
          simp only [h2, e1, e2]

/-- One-step unfolding of `findallBlocks`, matching the regex scan: find the
leftmost opener, then the nearest closer after it, capture the body, and
continue after the closer. -/
theorem findallBlocks_eq (s : List Char) :
    findallBlocks s =
      match splitFirst openTag s with
      | none => []
      | some (_, afterOpen) =>
        match splitFirst closeTag afterOpen with
        | none => []
        | some (body, rest) => body :: findallBlocks rest := by
  rw [findallBlocks, findallAux]
  cases h1 : splitFirst openTag s with
  | none => rfl
  | some p1 =>
    obtain ⟨pre1, afterOpen⟩ := p1
    cases h2 : splitFirst closeTag afterOpen with
    | none => simp only [h2]
    | some p2 =>
      obtain ⟨body, rest⟩ := p2
      have ha : afterOpen.length < s.length :=
        splitFirst_length (by simp [openTag]) h1
      have hb : rest.length < afterOpen.length :=
        splitFirst_length (by simp [closeTag]) h2
      simp only [h2, findallBlocks]
      rw [findallAux_fuel s.length rest (by omega)]

/-- A Python value of the fragment `ast.literal_eval` is used on in this code
base: strings, lists, and dicts.  (Numbers, tuples, sets, booleans and `None`
never occur in the payload shapes the planner/replanner prompts request; the
modelled parser rejects them, and no claim depends on them.) -/
inductive PyVal where
  | str : List Char → PyVal
  | list : List PyVal → PyVal
  | dict : List (PyVal × PyVal) → PyVal

/-- Skip Python whitespace between tokens. -/
def skipWs (s : List Char) : List Char := s.dropWhile isPySpace

/-- The expansion of a backslash escape inside a Python string literal:
recognised escapes map to their character, unknown ones keep the backslash
(as Python does). -/
def escChar (c : Char) : List Char :=
  if c = 'n' then ['\n']
  else if c = 't' then ['\t']
  else if c = 'r' then ['\x0d']
  else if c = '\\' then ['\\']
  else if c = '\x27' then ['\x27']
  else if c = '"' then ['"']
  else ['\\', c]

/-- Parse the body of a Python string literal delimited by quote `q`, handling
backslash escapes; returns the decoded characters and the rest of the input
after the closing quote. -/
def parseStrBody (q : Char) : List Char → Option (List Char × List Char)
  | [] => none
  | '\\' :: c :: rest =>
    match parseStrBody q rest with
    | some (body, rem) => some (escChar c ++ body, rem)
    | none => none
  | c :: rest =>
    if c = q then some ([], rest)
    else
      match parseStrBody q rest with
      | some (body, rem) => some (c :: body, rem)
      | none => none

mutual

/-- Fuel-indexed recursive-descent parser for the Python-literal fragment
(strings, lists, dicts); mirrors `ast.literal_eval`'s grammar on that
fragment.  Returns the value and the remaining input. -/
def parseVal : Nat → List Char → Option (PyVal × List Char)
  | 0, _ => none
  | fuel + 1, s =>
    match skipWs s with
    | '\x27' :: rest =>
      match parseStrBody '\x27' rest with
      | some (body, rem) => some (.str body, rem)
      | none => none
    | '"' :: rest =>
      match parseStrBody '"' rest with
      | some (body, rem) => some (.str body, rem)
      | none => none
    | '[' :: rest =>
      (match skipWs rest with
       | ']' :: rem => some (.list [], rem)
       | _ =>
         match parseItems fuel rest with
         | some (items, rem) => some (.list items, rem)
         | none => none)
    | '\x7b' :: rest =>
      (match skipWs rest with
       | '\x7d' :: rem => some (.dict [], rem)
       | _ =>
         match parsePairs fuel rest with
         | some (pairs, rem) => some (.dict pairs, rem)
         | none => none)
    | _ => none

/-- Parse a nonempty comma-separated list of values up to the closing `]`
(trailing comma allowed, as in Python). -/
def parseItems : Nat → List Char → Option (List PyVal × List Char)
  | 0, _ => none
  | fuel + 1, s =>
    match parseVal fuel s with
    | none => none
    | some (v, rest) =>
      match skipWs rest with
      | ']' :: rem => some ([v], rem)
      | ',' :: rest2 =>
        (match skipWs rest2 with
         | ']' :: rem => some ([v], rem)
         | _ =>
           match parseItems fuel rest2 with
           | some (vs, rem) => some (v :: vs, rem)
           | none => none)
      | _ => none

/-- Parse a nonempty comma-separated list of `key : value` pairs up to the
closing brace (trailing comma allowed).  Keys must be strings: a non-string
key makes the parse fail, matching `literal_eval`'s rejection of unhashable
literal keys on this fragment. -/
def parsePairs : Nat → List Char → Option (List (PyVal × PyVal) × List Char)
  | 0, _ => none
  | fuel + 1, s =>
    match parseVal fuel s with
    | none => none
    | some (k, rest) =>
      match k with
      | .str _ =>
        (match skipWs rest with
         | ':' :: rest2 =>
           (match parseVal fuel rest2 with
            | none => none
            | some (v, rest3) =>
              match skipWs rest3 with
              | '\x7d' :: rem => some ([(k, v)], rem)
              | ',' :: rest4 =>
                (match skipWs rest4 with
                 | '\x7d' :: rem => some ([(k, v)], rem)
                 | _ =>
                   match parsePairs fuel rest4 with
                   | some (ps, rem) => some ((k, v) :: ps, rem)
                   | none => none)
              | _ => none)
         | _ => none)
      | _ => none

end

/-- `ast.literal_eval` on the Python-literal fragment used by the payload
shapes: parse one value and require only whitespace to remain. -/
def literal_eval (s : List Char) : Option PyVal :=
  match parseVal (s.length + 1) s with
  | some (v, rest) => if skipWs rest = [] then some v else none
  | none => none

/-- `extract_json` from `plan_and_execute/node.py`: find all fenced `json`
blocks; take the last one stripped, or the whole text if there is none; check
the first character (an `IndexError` if the candidate is empty); wrap in
braces unless it already starts with one; `ast.literal_eval` the candidate
(a `ValueError` if it does not parse); return the singleton list of the
parsed object. -/
def extract_json (text : List Char) : Except PyErr (List PyVal) :=
  let ms := findallBlocks text
  let mtch :=
    match ms.getLast? with
    | none => text
    | some m => pyStrip m
  match mtch with
  | [] => .error .indexError
  | c :: _ =>
    let cand := if c = '\x7b' then mtch else '\x7b' :: (mtch ++ ['\x7d'])
    match literal_eval cand with
    | some v => .ok [v]
    | none => .error .valueError

example : literal_eval "\x7b\x22steps\x22: [\x22D\x22, \x22E\x22]\x7d".data =
    some (.dict [(.str "steps".data, .list [.str "D".data, .str "E".data])]) := by
  rfl

example : extract_json "\x22response\x22: \x22X\x22".data =
    .ok [.dict [(.str "response".data, .str "X".data)]] := by
  rfl

/-- Python `"k" in d` for a payload value; the payload keys in this code base
are strings. -/
def pyHasKey (v : PyVal) (k : List Char) : Bool :=
  match v with
  | .dict ps => ps.any fun p =>
      match p.1 with
      | .str s => s = k
      | _ => false
  | _ => false

/-- Python `d["k"]`: the binding of key `k`, the last one winning (a dict
literal with duplicate keys keeps the last). -/
def pyGet (v : PyVal) (k : List Char) : Option PyVal :=
  match v with
  | .dict ps =>
    ((ps.filter fun p =>
        match p.1 with
        | .str s => decide (s = k)
        | _ => false).getLast?).map Prod.snd
  | _ => none

/-- Read a payload value as the `List[str]` the state schema types the plan
with; anything else falls outside the schema. -/
def asStrList : PyVal → Option (List (List Char))
  | .list vs => vs.mapM fun v =>
      match v with
      | .str s => some s
      | _ => none
  | _ => none

/-- Modelled from the spec: the `PlanExecute` state schema (`state.py`) is
imported by the sources but is not among the provided files.  Following the
spec's LoopState: the immutable task input; the current plan, replaced
wholesale on replans; the append-only `past_steps` sequence of
(step text, result text) pairs — the schema's accumulating channel; and the
optional final response, absent until a replan sets it. -/
structure PlanExecute where
  input : List Char
  plan : List (List Char)
  past_steps : List (List Char × List Char)
  response : Option (List Char)
deriving DecidableEq

/-- The numbered plan listing built in `execute_step`:
`"\n".join(f"\x7bi+1\x7d. \x7bstep\x7d" for i, step in enumerate(plan))`. -/
def planListing (plan : List (List Char)) : List Char :=
  List.intercalate ['\n']
    (plan.enum.map fun p => (toString (p.1 + 1)).data ++ ". ".data ++ p.2)

/-- The task text submitted to the tool-using agent for the first plan step. -/
def taskFormatted (plan : List (List Char)) (task : List Char) : List Char :=
  "For the following plan:\n".data ++ planListing plan ++
    "\n\nYou are tasked with executing step 1, ".data ++ task ++ ".".data

/-- `execute_step`: take `plan[0]` (an `IndexError` on an empty plan), submit
the formatted task to the opaque tool-using agent capability, and return the
single `past_steps` pair `(task, result)` merged into the state through the
accumulating channel.  The first component records the tasks submitted to the
capability — exactly one per invocation, and there is no `try`/`except`
around the call: an exception from the capability propagates. -/
def execute_step (agent : List Char → Except (List Char) (List Char))
    (s : PlanExecute) : List (List Char) × Except PyErr PlanExecute :=
  match s.plan with
  | [] => ([], .error .indexError)
  | task :: _ =>
    let tf := taskFormatted s.plan task
    ([tf],
      match agent tf with
      | .error e => .error (.toolError e)
      | .ok content =>
        .ok { s with past_steps := s.past_steps ++ [(task, content)] })

/-- `plan_step`: the planner chain is `prompt | llm | extract_json`; the llm's
raw reply is the oracle argument `text`.  The plan is replaced by the
payload's `"steps"` value (`KeyError` if absent); a `"steps"` value that is
not a list of strings falls outside the `List[str]` schema and is modelled as
a `TypeError`. -/
def plan_step (text : List Char) (s : PlanExecute) : Except PyErr PlanExecute :=
  match extract_json text with
  | .error e => .error e
  | .ok [] => .error .indexError
  | .ok (out :: _) =>
    match pyGet out "steps".data with
    | some v =>
      match asStrList v with
      | some st => .ok { s with plan := st }
      | none => .error .typeError
    | none => .error .keyError

/-- `replan_step`: run the replanner chain on the current state; if the
payload has a `"steps"` key the plan is replaced wholesale by its value,
otherwise the payload's `"response"` value becomes the final response
(`KeyError` if neither key is present). -/
def replan_step (text : List Char) (s : PlanExecute) : Except PyErr PlanExecute :=
  match extract_json text with
  | .error e => .error e
  | .ok [] => .error .indexError
  | .ok (out :: _) =>
    if pyHasKey out "steps".data then
      match pyGet out "steps".data with
      | some v =>
        match asStrList v with
        | some st => .ok { s with plan := st }
        | none => .error .typeError
      | none => .error .keyError
    else
      match pyGet out "response".data with
      | some (.str r) => .ok { s with response := some r }
      | some _ => .error .typeError
      | none => .error .keyError

/-- The two routing targets of `should_end`: the execute node `"agent"`, or
the terminal `"__end__"` (`stop` here). -/
inductive Route where
  | agent : Route
  | stop : Route
deriving DecidableEq

/-- `should_end`: route to `"__end__"` iff the `response` key is present in
the state AND its value is truthy — for a string, non-empty. -/
def should_end (s : PlanExecute) : Route :=
  match s.response with
  | some r => if r ≠ [] then .stop else .agent
  | none => .agent

/-- The compiled graph's loop from the execute node, with explicit fuel for
the engine's recursion limit: `execute_step`, then `replan_step` on the
replanner model's reply (an oracle of the iteration index and the state after
the execute), then `should_end` either stops at `"__end__"` or loops back to
the execute node, exactly as wired in `plan_and_execute.py`.  The first
component is the trace of states at which the execute node was entered. -/
def loopFrom (agent : List Char → Except (List Char) (List Char))
    (replanLLM : Nat → PlanExecute → List Char) :
    Nat → Nat → PlanExecute → List PlanExecute × Except PyErr PlanExecute
  | 0, _, _ => ([], .error .recursionLimit)
  | fuel + 1, k, s =>
    match (execute_step agent s).2 with
    | .error e => ([s], .error e)
    | .ok s1 =>
      match replan_step (replanLLM k s1) s1 with
      | .error e => ([s], .error e)
      | .ok s2 =>
        match should_end s2 with
        | .stop => ([s], .ok s2)
        | .agent =>
          let r := loopFrom agent replanLLM fuel (k + 1) s2
          (s :: r.1, r.2)

/-- A full run of the plan-and-execute graph: `START → planner → agent`, then
the `agent → replan → (agent | __end__)` loop. -/
def runLoop (planLLM : List Char)
    (agent : List Char → Except (List Char) (List Char))
    (replanLLM : Nat → PlanExecute → List Char)
    (fuel : Nat) (input : List Char) :
    List PlanExecute × Except PyErr PlanExecute :=
  match plan_step planLLM ⟨input, [], [], none⟩ with
  | .error e => ([], .error e)
  | .ok s0 => loopFrom agent replanLLM fuel 0 s0

/-- A chat message as the reflection loop sees it: its `type`
(`"human"`/`"ai"`/`"tool"`), its content, and the ids of its tool calls. -/
structure Msg where
  type : List Char
  content : List Char
  tool_calls : List (List Char)
deriving DecidableEq

/-- `ResponderWithRetries.respond`, as executed on a graph state (the dict
holding `"messages"`).  `runnable` is the model chain (indexed by the attempt
number, for the `attempt:i` tag); `validator r = true` models
`validator.invoke` succeeding and `false` models it raising
`ValidationError`.  Under Python's actual typing the retry path cannot
complete: on a failed validation the code evaluates
`state + [response, ToolMessage(..., tool_call_id=response.tool_calls[0]["id"])]`
where `state` is the graph-state dict — building the `ToolMessage` first
evaluates `response.tool_calls[0]` (`IndexError` when there are no tool
calls), then `dict + list` raises `TypeError` — so instead of a second
attempt the exception replaces the recursive call. -/
def respondLoop (runnable : Nat → List Msg → Msg) (validator : Msg → Bool)
    (stateMessages : List Msg) : Nat → Nat → Except PyErr Msg
  | _, 0 => .ok ⟨"list".data, [], []⟩
  | attempt, _left + 1 =>
    let response := runnable attempt stateMessages
    if validator response then .ok response
    else if response.tool_calls = [] then .error .indexError
    else .error .typeError

/-- `respond`: `for attempt in range(3)` over `respondLoop`; the fall-through
return value (the initial `response = []`) is unreachable because the loop
body always returns or raises. -/
def respond (runnable : Nat → List Msg → Msg) (validator : Msg → Bool)
    (stateMessages : List Msg) : Except PyErr Msg :=
  respondLoop runnable validator stateMessages 0 3

/-- `MAX_ITERATIONS` from `reflection/reflection.py`. -/
def MAX_ITERATIONS : Nat := 5

/-- The counting loop of `_get_num_iterations`, already applied to the
reversed message list: count until the first message whose type is neither
`"tool"` nor `"ai"`. -/
def countFromEnd : List Msg → Nat
  | [] => 0
  | m :: rest =>
    if m.type = "tool".data ∨ m.type = "ai".data then countFromEnd rest + 1
    else 0

/-- `_get_num_iterations`: iterate `state[::-1]` counting trailing
tool/assistant messages. -/
def _get_num_iterations (msgs : List Msg) : Nat :=
  countFromEnd msgs.reverse

/-- The two routing targets of `event_loop`: the tool-execution node or
`END`. -/
inductive EventRoute where
  | execute_tools : EventRoute
  | stop : EventRoute
deriving DecidableEq

/-- `event_loop`: stop after the trailing-turn count exceeds
`MAX_ITERATIONS`, else run the tools node. -/
def event_loop (msgs : List Msg) : EventRoute :=
  if _get_num_iterations msgs > MAX_ITERATIONS then .stop
  else .execute_tools

/-! ## Supporting lemmas -/

/-- A message of tool or assistant kind, as a Bool predicate. -/
def isToolOrAi (m : Msg) : Bool :=
  decide (m.type = "tool".data ∨ m.type = "ai".data)

theorem countFromEnd_eq_takeWhile (l : List Msg) :
    countFromEnd l = (l.takeWhile isToolOrAi).length := by
  induction l with
  | nil => rfl
  | cons m rest ih =>
    by_cases h : m.type = "tool".data ∨ m.type = "ai".data
    · simp [countFromEnd, List.takeWhile, isToolOrAi, h, ih]
    · simp [countFromEnd, List.takeWhile, isToolOrAi, h]

theorem execute_step_plan_eq
    {agent : List Char → Except (List Char) (List Char)}
    {s s1 : PlanExecute} (h : (execute_step agent s).2 = .ok s1) :
    s1.plan = s.plan ∧ s1.response = s.response := by
  cases hp : s.plan with
  | nil => simp [execute_step, hp] at h
  | cons task rest =>
    simp only [execute_step, hp] at h
    cases ha : agent (taskFormatted (task :: rest) task) with
    | error e => rw [ha] at h; exact absurd h (by simp)
    | ok content =>
      rw [ha] at h
      have := Except.ok.injEq .. ▸ h
      cases h
      simp

/-! ## C7 — the reflection loop's continuation test -/

/-- C7 (confirmed): for every message history, `event_loop` routes to `END`
exactly when the length of the trailing run of messages of tool or assistant
(`"ai"`) kind — the maximal suffix of such messages, counted from the end,
stopping at the first other kind — exceeds the ceiling `MAX_ITERATIONS = 5`;
otherwise it routes to the tool-execution node. -/
theorem event_loop_trailing_run (msgs : List Msg) :
    (event_loop msgs = .stop ↔
      (msgs.reverse.takeWhile isToolOrAi).length > 5) ∧
    (event_loop msgs = .execute_tools ↔
      ¬ (msgs.reverse.takeWhile isToolOrAi).length > 5) := by
  have hc : _get_num_iterations msgs = (msgs.reverse.takeWhile isToolOrAi).length :=
    countFromEnd_eq_takeWhile msgs.reverse
  constructor
  · constructor
    · intro h
      by_contra hgt
      simp [event_loop, _get_num_iterations, MAX_ITERATIONS] at h
      rw [countFromEnd_eq_takeWhile] at h
      omega
    · intro h
      simp [event_loop, _get_num_iterations, MAX_ITERATIONS]
      rw [countFromEnd_eq_takeWhile]
      omega
  · constructor
    · intro h
      simp [event_loop, _get_num_iterations, MAX_ITERATIONS] at h
      rw [countFromEnd_eq_takeWhile] at h
      omega
    · intro h
      simp [event_loop, _get_num_iterations, MAX_ITERATIONS]
      rw [countFromEnd_eq_takeWhile]
      omega

/-! ## C6 — the bounded-retry responder -/

/-- A model chain that always replies with the same invalid tool call. -/
def runnableC6 : Nat → List Msg → Msg :=
  fun _ _ => ⟨"ai".data, "bad args".data, ["call_1".data]⟩

/-- A validator that raises `ValidationError` on every response. -/
def validatorC6 : Msg → Bool := fun _ => false

/-- C6 (code bug): when validation fails, `respond` does not retry and does
not fall through with the last raw response — the very first failed attempt
raises `TypeError`, because `state + [response, ToolMessage(...)]` adds a
list to the graph-state dict (the function even annotates `state: list`
while indexing `state["messages"]`).  Evaluated at a concrete failing input:
one human message, a chain whose reply always fails validation. -/
theorem respond_raises_on_first_failure :
    respond runnableC6 validatorC6 [⟨"human".data, "hi".data, []⟩] =
      .error .typeError := rfl

/-! ## C2 — the execute step runs exactly the first plan step -/

/-- C2 (confirmed): with a non-empty plan, `execute_step` submits exactly one
task to the tool-agent capability — the formatted text of the FIRST plan step
only — and appends exactly one `(step text, result text)` pair through the
accumulating `past_steps` channel; plan, input and response are untouched.
Control then always passes to the replanner (`workflow.add_edge("agent",
"replan")`), as the loop model `loopFrom` reflects. -/
theorem execute_step_first_only
    (agent : List Char → Except (List Char) (List Char))
    (s : PlanExecute) (task : List Char) (rest : List (List Char))
    (r : List Char)
    (hplan : s.plan = task :: rest)
    (hok : agent (taskFormatted (task :: rest) task) = .ok r) :
    execute_step agent s =
      ([taskFormatted (task :: rest) task],
        .ok { s with past_steps := s.past_steps ++ [(task, r)] }) := by
  obtain ⟨inp, plan, past, resp⟩ := s
  simp only at hplan
  subst hplan
  simp [execute_step, hok]

/-- C2 witness: initial plan `["A","B","C"]`; only step "A" is submitted and
exactly the pair ("A", its result) is appended. -/
theorem execute_step_first_only_witness :
    (⟨"q".data, ["A".data, "B".data, "C".data], [], none⟩ : PlanExecute).plan =
        "A".data :: ["B".data, "C".data] ∧
    execute_step (fun _ => .ok "result A".data)
        ⟨"q".data, ["A".data, "B".data, "C".data], [], none⟩ =
      ([taskFormatted ["A".data, "B".data, "C".data] "A".data],
        .ok ⟨"q".data, ["A".data, "B".data, "C".data],
          [("A".data, "result A".data)], none⟩) :=
  ⟨rfl,
    execute_step_first_only (fun _ => .ok "result A".data)
      ⟨"q".data, ["A".data, "B".data, "C".data], [], none⟩
      "A".data ["B".data, "C".data] "result A".data rfl rfl⟩

/-! ## C3 — steps-shaped replans replace the plan wholesale -/

/-- C3 (confirmed): whenever the replanner's payload has the `steps` shape,
the stored plan becomes exactly the new steps sequence `st` — whatever the
old plan was, none of it survives or is merged — and `past_steps`, `input`
and `response` are untouched. -/
theorem replan_step_replaces_plan (t : List Char) (s : PlanExecute)
    (out : PyVal) (st : List (List Char))
    (hex : extract_json t = .ok [out])
    (hkey : pyHasKey out "steps".data = true)
    (hval : (pyGet out "steps".data).bind asStrList = some st) :
    replan_step t s = .ok { s with plan := st } := by
  simp only [replan_step, hex, hkey, if_pos]
  cases hg : pyGet out "steps".data with
  | none => rw [hg] at hval; exact absurd hval (by simp)
  | some v =>
    rw [hg] at hval
    simp only [Option.some_bind] at hval
    simp [hval]

/-- C3 witness: old plan `["B","C"]`, replanner payload
`\x7bsteps: ["D","E"]\x7d` — the new plan is exactly `["D","E"]`. -/
theorem replan_step_replaces_plan_witness :
    extract_json "\x7b\x22steps\x22: [\x22D\x22, \x22E\x22]\x7d".data =
      .ok [.dict [(.str "steps".data, .list [.str "D".data, .str "E".data])]] ∧
    replan_step "\x7b\x22steps\x22: [\x22D\x22, \x22E\x22]\x7d".data
        ⟨"q".data, ["B".data, "C".data], [("A".data, "rA".data)], none⟩ =
      .ok ⟨"q".data, ["D".data, "E".data], [("A".data, "rA".data)], none⟩ :=
  ⟨rfl,
    replan_step_replaces_plan _ _
      (.dict [(.str "steps".data, .list [.str "D".data, .str "E".data])])
      ["D".data, "E".data] rfl rfl rfl⟩

/-! ## C9 — what happens when the tool capability raises -/

/-- A tool-agent capability that raises on every task. -/
def agentRaising : List Char → Except (List Char) (List Char) :=
  fun _ => .error "SerperError: quota exceeded".data

/-- C9 counterexample: with plan `["A"]` and a capability that raises,
`execute_step` ends in the propagated exception — the run does NOT produce a
state whose `past_steps` carries the error as the step's stringified result
text.  There is no `try`/`except` in `execute_step` (nor in `rewoo.py`'s
`tool_execution`, whose `str(result)` stringifies only successful results). -/
theorem execute_step_error_propagates_concrete :
    execute_step agentRaising ⟨"q".data, ["A".data], [], none⟩ =
      ([taskFormatted ["A".data] "A".data],
        .error (.toolError "SerperError: quota exceeded".data)) := rfl

/-- C9 amended (proved): if the tool-invocation capability raises during the
execute step, the error is not retried at the controller level — the
capability is invoked exactly once — and the exception PROPAGATES out of the
step; it is not converted into the step's result text (no `past_steps` pair
is produced). -/
theorem execute_step_error_propagates
    (agent : List Char → Except (List Char) (List Char))
    (s : PlanExecute) (task : List Char) (rest : List (List Char))
    (e : List Char)
    (hplan : s.plan = task :: rest)
    (herr : agent (taskFormatted (task :: rest) task) = .error e) :
    execute_step agent s =
      ([taskFormatted (task :: rest) task], .error (.toolError e)) := by
  obtain ⟨inp, plan, past, resp⟩ := s
  simp only at hplan
  subst hplan
  simp [execute_step, herr]

/-- C9 amended witness: one invocation, propagated error, at a concrete
state. -/
theorem execute_step_error_propagates_witness :
    (⟨"q".data, ["A".data, "B".data], [], none⟩ : PlanExecute).plan =
        "A".data :: ["B".data] ∧
    execute_step (fun _ => .error "boom".data)
        ⟨"q".data, ["A".data, "B".data], [], none⟩ =
      ([taskFormatted ["A".data, "B".data] "A".data],
        .error (.toolError "boom".data)) :=
  ⟨rfl,
    execute_step_error_propagates (fun _ => .error "boom".data)
      ⟨"q".data, ["A".data, "B".data], [], none⟩
      "A".data ["B".data] "boom".data rfl rfl⟩

/-! ## C1 — response-shaped replans and termination -/

/-- The state used in the C1 counterexample: mid-run, one step executed. -/
def stateC1 : PlanExecute :=
  ⟨"q".data, ["B".data], [("A".data, "rA".data)], none⟩

/-- C1 counterexample: the claim quantifies over EVERY string X, but for
X = "" the replanner payload `\x7bresponse: ""\x7d` sets the response and the
controller still routes back to the execute node: `should_end` tests
truthiness, and the empty string is falsy.  Presence of the final response is
therefore not the termination signal; non-emptiness is required. -/
theorem replan_empty_response_does_not_stop :
    replan_step "\x7b\x22response\x22: \x22\x22\x7d".data stateC1 =
      .ok { stateC1 with response := some [] } ∧
    should_end { stateC1 with response := some [] } = .agent :=
  ⟨rfl, rfl⟩

/-- C1 amended (proved): whenever the replanner emits a payload of the
response shape with a NON-EMPTY response string X, the loop stops right
there: `should_end` routes to `"__end__"`, the run's final state carries X as
its output response, the `past_steps` sequence is exactly what the execute
step left (the replanning step does not touch it), and no further execute
iteration happens (the trace of execute entries gains no further state). -/
theorem replan_response_terminates
    (agent : List Char → Except (List Char) (List Char))
    (replanLLM : Nat → PlanExecute → List Char)
    (fuel k : Nat) (s s1 : PlanExecute) (out : PyVal) (X : List Char)
    (hexec : (execute_step agent s).2 = .ok s1)
    (hex : extract_json (replanLLM k s1) = .ok [out])
    (hnosteps : pyHasKey out "steps".data = false)
    (hresp : pyGet out "response".data = some (.str X))
    (hX : X ≠ []) :
    loopFrom agent replanLLM (fuel + 1) k s =
      ([s], .ok { s1 with response := some X }) ∧
    ({ s1 with response := some X } : PlanExecute).past_steps =
      s1.past_steps ∧
    should_end { s1 with response := some X } = .stop := by
  have hr : replan_step (replanLLM k s1) s1 = .ok { s1 with response := some X } := by
    simp [replan_step, hex, hnosteps, hresp]
  have hse : should_end { s1 with response := some X } = .stop := by
    simp [should_end, hX]
  refine ⟨?_, rfl, hse⟩
  rw [loopFrom, hexec]
  simp only [hr, hse]

/-- C1 amended witness: the spec's own scenario — after executing the search
step, the replanner answers `\x7bresponse: "The capital of France is
Paris."\x7d` and the loop terminates with exactly that string, `past_steps`
untouched. -/
theorem replan_response_terminates_witness :
    (execute_step (fun _ => .ok "Paris".data)
        ⟨"q".data, ["Search".data, "Report".data], [], none⟩).2 =
      .ok ⟨"q".data, ["Search".data, "Report".data],
        [("Search".data, "Paris".data)], none⟩ ∧
    loopFrom (fun _ => .ok "Paris".data)
        (fun _ _ => "\x7b\x22response\x22: \x22The capital of France is Paris.\x22\x7d".data)
        7 0 ⟨"q".data, ["Search".data, "Report".data], [], none⟩ =
      ([⟨"q".data, ["Search".data, "Report".data], [], none⟩],
        .ok ⟨"q".data, ["Search".data, "Report".data],
          [("Search".data, "Paris".data)],
          some "The capital of France is Paris.".data⟩) :=
  ⟨rfl,
    (replan_response_terminates (fun _ => .ok "Paris".data)
      (fun _ _ => "\x7b\x22response\x22: \x22The capital of France is Paris.\x22\x7d".data)
      6 0 ⟨"q".data, ["Search".data, "Report".data], [], none⟩
      ⟨"q".data, ["Search".data, "Report".data],
        [("Search".data, "Paris".data)], none⟩
      (.dict [(.str "response".data,
        .str "The capital of France is Paris.".data)])
      "The capital of France is Paris.".data
      rfl rfl rfl rfl (by simp)).1⟩

/-! ## C10 — the extractor is not total on empty candidates -/

/-- C10 (confirmed): whenever the selected payload candidate is the empty
string — the message content is empty (and then has no fenced block), or the
last fenced `json` block's body strips to nothing — `extract_json` raises
`IndexError` at the `match[0]` leading-brace check: the result is
`IndexError`, not the parser's `ValueError`, so `literal_eval` is never
reached and the defensive brace-repair is not total on empty candidates. -/
theorem extract_json_empty_candidate (t : List Char)
    (h : t = [] ∨ ∃ b, (findallBlocks t).getLast? = some b ∧ pyStrip b = []) :
    extract_json t = .error .indexError := by
  rcases h with rfl | ⟨b, hb, hstrip⟩
  · rfl
  · simp only [extract_json, hb, hstrip]

/-- C10 witness: the raw text `` ```json\n``` `` — one fenced block whose body
strips to the empty string — hits the `IndexError`. -/
theorem extract_json_empty_candidate_witness :
    (∃ b, (findallBlocks "```json\n```".data).getLast? = some b ∧
      pyStrip b = []) ∧
    extract_json "```json\n```".data = .error .indexError :=
  ⟨⟨['\n'], rfl, rfl⟩,
    extract_json_empty_candidate _ (Or.inr ⟨['\n'], rfl, rfl⟩)⟩

/-! ## C4 — the last fenced block is authoritative -/

/-- The spec's reading of the block policy, defined from its words: "the
extractor returns the payload parsed from the last block" — parse exactly the
given block body: strip it, brace-repair, `literal_eval`. -/
def payloadOfBlock (body : List Char) : Except PyErr (List PyVal) :=
  let m := pyStrip body
  match m with
  | [] => .error .indexError
  | c :: _ =>
    let cand := if c = '\x7b' then m else '\x7b' :: (m ++ ['\x7d'])
    match literal_eval cand with
    | some v => .ok [v]
    | none => .error .valueError

/-- C4 (confirmed): for every raw text with at least one fenced `json` block,
`extract_json` returns exactly the payload parsed from the LAST block (with
surrounding whitespace stripped); every earlier block is ignored — any two
texts sharing the same last block extract identically. -/
theorem extract_json_last_block (t b : List Char)
    (h : (findallBlocks t).getLast? = some b) :
    extract_json t = payloadOfBlock b ∧
    ∀ t' : List Char, (findallBlocks t').getLast? = some b →
      extract_json t' = extract_json t := by
  have key : ∀ u : List Char, (findallBlocks u).getLast? = some b →
      extract_json u = payloadOfBlock b := by
    intro u hu
    simp only [extract_json, payloadOfBlock, hu]
  exact ⟨key t h, fun t' ht' => (key t' ht').trans (key t h).symm⟩

/-- The raw text of the C4 witness: an earlier draft block followed by a
final corrected block. -/
def textC4 : List Char :=
  "```json \x7b\x22a\x22: \x22draft\x22\x7d ``` some prose ```json \x7b\x22response\x22: \x22X\x22\x7d ```".data

/-- The body of the last fenced block of `textC4`. -/
def lastBlockC4 : List Char := " \x7b\x22response\x22: \x22X\x22\x7d ".data

/-- C4 witness: on a text with two fenced blocks, extraction equals the parse
of the last block and yields its payload, ignoring the earlier draft. -/
theorem extract_json_last_block_witness :
    (findallBlocks textC4).getLast? = some lastBlockC4 ∧
    extract_json textC4 = payloadOfBlock lastBlockC4 ∧
    extract_json textC4 =
      .ok [.dict [(.str "response".data, .str "X".data)]] :=
  ⟨rfl, (extract_json_last_block textC4 lastBlockC4 rfl).1, rfl⟩

/-! ## C5 — defensive brace repair and its idempotence

The wrap-preservation lemmas: adding an outer `\x7b`/`\x7d` pair cannot
create a fenced block, because neither tag starts with a brace nor ends with
one. -/

theorem splitFirst_cons_of_head_ne {pat : List Char} {c : Char}
    (hpat : pat ≠ []) (hne : pat.head? ≠ some c) (s : List Char) :
    splitFirst pat (c :: s) =
      (splitFirst pat s).map fun p => (c :: p.1, p.2) := by
  have hpre : pat.isPrefixOf (c :: s) = false := by
    cases pat with
    | nil => exact absurd rfl hpat
    | cons p ps =>
      have hpc : p ≠ c := by
        intro h
        exact hne (by simp [h])
      simp [List.isPrefixOf, hpc]
  rw [splitFirst]
  simp only [hpre, Bool.false_eq_true, if_false]
  cases h : splitFirst pat s with
  | none => simp
  | some p =>
    obtain ⟨pre, post⟩ := p
    simp

theorem isPrefixOf_append_last {c : Char} :
    ∀ {pat : List Char}, ∀ xs : List Char, pat ≠ [] →
      pat.getLast? ≠ some c →
      pat.isPrefixOf (xs ++ [c]) = pat.isPrefixOf xs := by
  intro pat
  induction pat with
  | nil => intro xs h; exact absurd rfl h
  | cons p ps ih =>
    intro xs _ hlast
    cases xs with
    | nil =>
      cases ps with
      | nil =>
        have hpc : p ≠ c := by
          intro h
          exact hlast (by simp [h])
        simp [List.isPrefixOf, hpc]
      | cons q qs =>
        simp [List.isPrefixOf]
    | cons x xs' =>
      cases ps with
      | nil => simp [List.isPrefixOf]
      | cons q qs =>
        have h1 : (q :: qs : List Char) ≠ [] := by simp
        have h2 : (q :: qs).getLast? ≠ some c := by
          intro h
          exact hlast (by rw [List.getLast?_cons_cons]; exact h)
        simp [List.isPrefixOf, ih xs' h1 h2]

theorem splitFirst_append_last {pat : List Char} {c : Char}
    (hpat : pat ≠ []) (hlast : pat.getLast? ≠ some c) :
    ∀ s : List Char, splitFirst pat (s ++ [c]) =
      (splitFirst pat s).map fun p => (p.1, p.2 ++ [c]) := by
  intro s
  induction s with
  | nil =>
    have hpre : pat.isPrefixOf ([] ++ [c]) = false := by
      rw [isPrefixOf_append_last [] hpat hlast]
      cases pat with
      | nil => exact absurd rfl hpat
      | cons p ps => simp [List.isPrefixOf]
    simp only [List.nil_append] at hpre
    rw [splitFirst]
    simp [hpre, splitFirst]
  | cons a s' ih =>
    have hc := isPrefixOf_append_last (a :: s') hpat hlast
    rw [List.cons_append] at hc
    rw [List.cons_append, splitFirst, hc]
    conv_rhs => rw [splitFirst]
    by_cases hp : pat.isPrefixOf (a :: s')
    · have hlen : pat.length ≤ (a :: s').length :=
        (List.isPrefixOf_iff_prefix.mp hp).length_le
      simp only [hp, if_true, Option.map_some]
      rw [← List.cons_append, List.drop_append_of_le_length hlen]
      rfl
    · simp only [hp, Bool.false_eq_true, if_false]
      rw [ih]
      cases h : splitFirst pat s' with
      | none => simp
      | some p =>
        obtain ⟨pre, post⟩ := p
        simp

/-- Brace-wrapping a text with no fenced `json` block yields a text with no
fenced `json` block. -/
theorem findallBlocks_wrap_empty {t : List Char} (h : findallBlocks t = []) :
    findallBlocks ('\x7b' :: (t ++ ['\x7d'])) = [] := by
  rw [findallBlocks_eq]
  have hopen1 : splitFirst openTag ('\x7b' :: (t ++ ['\x7d'])) =
      (splitFirst openTag (t ++ ['\x7d'])).map fun p => ('\x7b' :: p.1, p.2) :=
    splitFirst_cons_of_head_ne (by decide) (by decide) _
  have hopen2 : splitFirst openTag (t ++ ['\x7d']) =
      (splitFirst openTag t).map fun p => (p.1, p.2 ++ ['\x7d']) :=
    splitFirst_append_last (by decide) (by decide) t
  rw [hopen1, hopen2]
  cases ho : splitFirst openTag t with
  | none => simp
  | some p =>
    obtain ⟨pre, post⟩ := p
    have hcl : splitFirst closeTag post = none := by
      rw [findallBlocks_eq, ho] at h
      have h' : (match splitFirst closeTag post with
          | none => ([] : List (List Char))
          | some (body, rest) => body :: findallBlocks rest) = [] := h
      cases hc : splitFirst closeTag post with
      | none => rfl
      | some q =>
        obtain ⟨b, r⟩ := q
        rw [hc] at h'
        exact absurd h' (by simp)
    have hcl2 : splitFirst closeTag (post ++ ['\x7d']) = none := by
      rw [splitFirst_append_last (by decide) (by decide) post, hcl]
      rfl
    simp [hcl2]

/-- C5 (confirmed): for a raw text that is a single structured payload with
its outer braces missing — no fenced block, non-empty, not beginning with an
object-opening brace — the extractor wraps it in braces and parses it; and
extraction is idempotent on the repaired text: running `extract_json` on the
brace-wrapped text yields the same payload. -/
theorem extract_json_brace_repair (t : List Char) (p : PyVal)
    (hne : t ≠ [])
    (hnof : findallBlocks t = [])
    (hhead : t.head? ≠ some '\x7b')
    (hparse : literal_eval ('\x7b' :: (t ++ ['\x7d'])) = some p) :
    extract_json t = .ok [p] ∧
    extract_json ('\x7b' :: (t ++ ['\x7d'])) = .ok [p] := by
  constructor
  · cases t with
    | nil => exact absurd rfl hne
    | cons c t' =>
      have hc : c ≠ '\x7b' := by
        intro h
        exact hhead (by simp [h])
      have hl : (findallBlocks (c :: t')).getLast? = none := by
        rw [hnof]; rfl
      simp only [extract_json, hl]
      rw [if_neg hc, hparse]
  · have hw : findallBlocks ('\x7b' :: (t ++ ['\x7d'])) = [] :=
      findallBlocks_wrap_empty hnof
    have hl : (findallBlocks ('\x7b' :: (t ++ ['\x7d']))).getLast? = none := by
      rw [hw]; rfl
    simp only [extract_json, hl]
    simp [hparse]

/-- C5 witness: the bare payload `"response": "X"` (no outer braces, no
fenced block): repair parses it, and extraction of the repaired text gives
the same payload. -/
theorem extract_json_brace_repair_witness :
    "\x22response\x22: \x22X\x22".data ≠ [] ∧
    findallBlocks "\x22response\x22: \x22X\x22".data = [] ∧
    extract_json "\x22response\x22: \x22X\x22".data =
      .ok [.dict [(.str "response".data, .str "X".data)]] ∧
    extract_json ('\x7b' :: ("\x22response\x22: \x22X\x22".data ++ ['\x7d'])) =
      .ok [.dict [(.str "response".data, .str "X".data)]] :=
  ⟨by decide, rfl,
    (extract_json_brace_repair "\x22response\x22: \x22X\x22".data
      (.dict [(.str "response".data, .str "X".data)])
      (by decide) rfl (by decide) rfl).1,
    (extract_json_brace_repair "\x22response\x22: \x22X\x22".data
      (.dict [(.str "response".data, .str "X".data)])
      (by decide) rfl (by decide) rfl).2⟩

/-! ## C8 — is the plan non-empty whenever execute is entered? -/

/-- A model reply that never shrinks the plan to nothing: whenever its
payload parses and carries a well-typed `steps` list, that list is
non-empty.  (The code itself never checks this.) -/
def stepsNonempty (t : List Char) : Prop :=
  ∀ out rest st, extract_json t = .ok (out :: rest) →
    (pyGet out "steps".data).bind asStrList = some st → st ≠ []

/-- `extract_json` always returns a singleton list (`return [python_obj]`). -/
theorem extract_json_shape {t : List Char} {l : List PyVal}
    (h : extract_json t = .ok l) : ∃ v, l = [v] := by
  simp only [extract_json] at h
  generalize hm : (match (findallBlocks t).getLast? with
      | none => t
      | some m => pyStrip m) = mtch at h
  cases mtch with
  | nil => exact absurd h (by simp)
  | cons c cs =>
    cases hlit : literal_eval (if c = '\x7b' then c :: cs
        else '\x7b' :: (c :: cs ++ ['\x7d'])) with
    | none =>
      simp only [hlit] at h
      exact absurd h (by simp)
    | some v =>
      simp only [hlit, Except.ok.injEq] at h
      exact ⟨v, h.symm⟩

theorem replan_step_plan_nonempty {t : List Char} {s s2 : PlanExecute}
    (hs : s.plan ≠ []) (hgood : stepsNonempty t)
    (h : replan_step t s = .ok s2) : s2.plan ≠ [] := by
  cases hex : extract_json t with
  | error e =>
    rw [replan_step, hex] at h
    exact absurd h (by simp)
  | ok outs =>
    obtain ⟨out, rfl⟩ := extract_json_shape hex
    simp only [replan_step, hex] at h
    by_cases hk : pyHasKey out "steps".data = true
    · rw [if_pos hk] at h
      cases hg : pyGet out "steps".data with
      | none => rw [hg] at h; exact absurd h (by simp)
      | some v =>
        simp only [hg] at h
        cases hv : asStrList v with
        | none =>
          simp only [hv] at h
          exact absurd h (by simp)
        | some st =>
          simp only [hv, Except.ok.injEq] at h
          have hst : st ≠ [] := by
            refine hgood out [] st hex ?_
            rw [hg, Option.some_bind, hv]
          rw [← h]
          exact hst
    · rw [if_neg hk] at h
      cases hg : pyGet out "response".data with
      | none => rw [hg] at h; exact absurd h (by simp)
      | some v =>
        rw [hg] at h
        cases v with
        | str r =>
          have h2 : s2 = { s with response := some r } :=
            (Except.ok.injEq .. ▸ h).symm
          rw [h2]
          exact hs
        | list l => exact absurd h (by simp)
        | dict d => exact absurd h (by simp)

theorem plan_step_plan_nonempty {t : List Char} {s s0 : PlanExecute}
    (hgood : stepsNonempty t) (h : plan_step t s = .ok s0) :
    s0.plan ≠ [] := by
  cases hex : extract_json t with
  | error e =>
    rw [plan_step, hex] at h
    exact absurd h (by simp)
  | ok outs =>
    obtain ⟨out, rfl⟩ := extract_json_shape hex
    simp only [plan_step, hex] at h
    cases hg : pyGet out "steps".data with
    | none => rw [hg] at h; exact absurd h (by simp)
    | some v =>
      simp only [hg] at h
      cases hv : asStrList v with
      | none =>
        simp only [hv] at h
        exact absurd h (by simp)
      | some st =>
        simp only [hv, Except.ok.injEq] at h
        have hst : st ≠ [] := by
          refine hgood out [] st hex ?_
          rw [hg, Option.some_bind, hv]
        rw [← h]
        exact hst

theorem loopFrom_plan_nonempty
    (agent : List Char → Except (List Char) (List Char))
    (replanLLM : Nat → PlanExecute → List Char)
    (hrep : ∀ k s', stepsNonempty (replanLLM k s')) :
    ∀ fuel k s, s.plan ≠ [] →
      ∀ x ∈ (loopFrom agent replanLLM fuel k s).1, x.plan ≠ [] := by
  intro fuel
  induction fuel with
  | zero =>
    intro k s hs x hx
    simp [loopFrom] at hx
  | succ f ih =>
    intro k s hs x hx
    rw [loopFrom] at hx
    cases he : (execute_step agent s).2 with
    | error e =>
      simp only [he] at hx
      simp at hx
      exact hx ▸ hs
    | ok s1 =>
      simp only [he] at hx
      cases hr : replan_step (replanLLM k s1) s1 with
      | error e =>
        simp only [hr] at hx
        simp at hx
        exact hx ▸ hs
      | ok s2 =>
        simp only [hr] at hx
        cases hd : should_end s2 with
        | stop =>
          simp only [hd] at hx
          simp at hx
          exact hx ▸ hs
        | agent =>
          simp only [hd] at hx
          simp at hx
          rcases hx with rfl | hx2
          · exact hs
          · have hs1 : s1.plan ≠ [] := by
              rw [(execute_step_plan_eq he).1]
              exact hs
            have hs2 : s2.plan ≠ [] :=
              replan_step_plan_nonempty hs1 (hrep k s1) hr
            exact ih (k + 1) s2 hs2 x hx2

/-- The tool-agent oracle of the C8 counterexample. -/
def agentC8 : List Char → Except (List Char) (List Char) :=
  fun _ => .ok "r".data

/-- The replanner oracle of the C8 counterexample: it always emits the
steps-shaped payload with the EMPTY list of steps. -/
def replanC8 : Nat → PlanExecute → List Char :=
  fun _ _ => "\x7b\x22steps\x22: []\x7d".data

/-- The mid-run state of the C8 counterexample. -/
def stateC8 : PlanExecute := ⟨"q".data, ["B".data], [], none⟩

/-- C8 counterexample: the code nowhere enforces plan non-emptiness.  After a
replan emitting `\x7bsteps: []\x7d`, `should_end` still routes to the execute
node (no response is set), so execute is entered with `plan = []` — the trace
of execute-entry states is `[plan ["B"], plan []]` — and the run then dies
with the `plan[0]` IndexError. -/
theorem execute_entered_with_empty_plan :
    (loopFrom agentC8 replanC8 2 0 stateC8).1.map PlanExecute.plan =
      [["B".data], []] ∧
    (loopFrom agentC8 replanC8 2 0 stateC8).2 = .error .indexError :=
  ⟨rfl, rfl⟩

/-- C8 amended (proved): the invariant "the plan is non-empty whenever
control enters the execute state, including after any replan that routes back
to execute" holds for every run PROVIDED the planner's payload and every
replanner steps-shaped payload carry a non-empty steps list; the code itself
does not enforce this. -/
theorem runLoop_execute_plan_nonempty
    (planLLM : List Char)
    (agent : List Char → Except (List Char) (List Char))
    (replanLLM : Nat → PlanExecute → List Char)
    (fuel : Nat) (input : List Char)
    (hplan : stepsNonempty planLLM)
    (hrep : ∀ k s', stepsNonempty (replanLLM k s')) :
    ∀ x ∈ (runLoop planLLM agent replanLLM fuel input).1, x.plan ≠ [] := by
  intro x hx
  unfold runLoop at hx
  cases hp : plan_step planLLM ⟨input, [], [], none⟩ with
  | error e => rw [hp] at hx; simp at hx
  | ok s0 =>
    rw [hp] at hx
    exact loopFrom_plan_nonempty agent replanLLM hrep fuel 0 s0
      (plan_step_plan_nonempty hplan hp) x hx

/-- The planner oracle of the C8 witness. -/
def planW : List Char := "\x7b\x22steps\x22: [\x22A\x22]\x7d".data

/-- The replanner oracle of the C8 witness: steps done, respond. -/
def replanW : Nat → PlanExecute → List Char :=
  fun _ _ => "\x7b\x22response\x22: \x22done\x22\x7d".data

/-- C8 witness: a run whose planner emits one step and whose replanner then
responds; the execute node is entered once, with the non-empty plan `["A"]`. -/
theorem runLoop_execute_plan_nonempty_witness :
    stepsNonempty planW ∧
    (∀ x ∈ (runLoop planW (fun _ => .ok "r".data) replanW 3 "q".data).1,
      x.plan ≠ []) ∧
    (runLoop planW (fun _ => .ok "r".data) replanW 3 "q".data).1.map
      PlanExecute.plan = [["A".data]] := by
  have hplan : stepsNonempty planW := by
    intro out rest st h1 h2
    rw [show extract_json planW =
        .ok [.dict [(.str "steps".data, .list [.str "A".data])]] from rfl] at h1
    simp only [Except.ok.injEq, List.cons.injEq] at h1
    rw [← h1.1] at h2
    simp only [show (pyGet (PyVal.dict [(.str "steps".data,
      .list [.str "A".data])]) "steps".data).bind asStrList =
        some ["A".data] from rfl, Option.some.injEq] at h2
    rw [← h2]
    simp
  have hrep : ∀ k s', stepsNonempty (replanW k s') := by
    intro k s' out rest st h1 h2
    rw [show extract_json (replanW k s') =
        .ok [.dict [(.str "response".data, .str "done".data)]] from rfl] at h1
    simp only [Except.ok.injEq, List.cons.injEq] at h1
    rw [← h1.1] at h2
    exact absurd h2 (by simp [pyGet])
  exact ⟨hplan,
    runLoop_execute_plan_nonempty planW (fun _ => .ok "r".data) replanW 3
      "q".data hplan hrep, rfl⟩

end LGT
